import Mathlib

/-!
Verification development for the obs-splits repository (splits-timer.py,
splits.py, socket_server.py).  Times are modelled as rationals, Python
dicts as insertion-ordered association lists, and the timer / history
state machines as explicit state-passing functions translated from the
source.  The two near-identical plugin variants (class-based
splits-timer.py and global-state splits.py) share the same logic line
for line; one embedding covers both.
-/

/-- A RunRecord: segment name to duration, insertion ordered
(`run_data` dicts in the source). -/
abbrev RunRecord := List (String × ℚ)

/-- A category's segment history: run timestamp-key to RunRecord
(`segment_history` in the source). -/
abbrev SegmentHistory := List (String × RunRecord)

/-- Python dict assignment `m[k] = v`: overwrite in place if the key
exists (keeping its position), else append at the end. -/
def dictInsert {α : Type} (k : String) (v : α) (m : List (String × α)) :
    List (String × α) :=
  if m.any (fun p => p.1 == k) then
    m.map (fun p => if p.1 == k then (k, v) else p)
  else
    m ++ [(k, v)]

/-- `sum(run_data.values())` from the PB loops in
`SplitsTimer.start` (splits-timer.py:41) and `trigger_split`
(splits.py:374). -/
def runTotal (r : RunRecord) : ℚ :=
  (r.map Prod.snd).sum

/-- Python `min(best_times) if best_times else None`
(splits-timer.py:103, splits.py:238). -/
def listMin : List ℚ → Option ℚ
  | [] => none
  | x :: xs => some (xs.foldl min x)

/-- The durations recorded for segment `name` across all RunRecords of
the history, in iteration order: the `best_times` accumulation loop of
`_get_best_segment` (splits-timer.py:99-102). -/
def segTimes (name : String) (hist : SegmentHistory) : List ℚ :=
  hist.filterMap (fun p => p.2.lookup name)

/-- `SplitsTimer._get_best_segment` (splits-timer.py:93-103), also
`get_best_segment` (splits.py:230-238): `None` when the index is out of
range, else the minimum recorded duration for `split_names[index]`, or
`None` when no run contains that segment. -/
def getBestSegment (index : ℤ) (names : List String)
    (hist : SegmentHistory) : Option ℚ :=
  if index < 0 ∨ (names.length : ℤ) ≤ index then none
  else listMin (segTimes (names.getD index.toNat "") hist)

/-- One iteration of the PB-search loop in `SplitsTimer.start`
(splits-timer.py:40-44): replace the accumulator when `min_total is
None or run_total < min_total`. -/
def pbStep (acc : Option RunRecord × Option ℚ) (run : RunRecord) :
    Option RunRecord × Option ℚ :=
  match acc.2 with
  | none => (some run, some (runTotal run))
  | some m => if runTotal run < m then (some run, some (runTotal run)) else acc

/-- The personal-best computation: the `for run_data in
segment_history.values()` loop of `SplitsTimer.start`
(splits-timer.py:37-44) / `trigger_split` (splits.py:370-378), returning
`(pb_run, min_total)`. -/
def findPB (runs : List RunRecord) : Option RunRecord × Option ℚ :=
  runs.foldl pbStep (none, none)

/-- The `comparison_best_segments` dict built by the snapshot loop of
`SplitsTimer.start` (splits-timer.py:48-53). -/
def snapshotBest (names : List String) (hist : SegmentHistory) :
    List (String × ℚ) :=
  (List.range names.length).foldl
    (fun acc i =>
      match getBestSegment (Int.ofNat i) names hist with
      | some b => dictInsert (names.getD i "") b acc
      | none => acc) []

/-- The `comparison_pb_segments` dict built by the snapshot loop of
`SplitsTimer.start` (splits-timer.py:48, 55-57): `if pb_run and name in
pb_run` (an empty pb_run dict is falsy). -/
def snapshotPB (names : List String) (pbRun : Option RunRecord) :
    List (String × ℚ) :=
  names.foldl
    (fun acc name =>
      match pbRun with
      | none => acc
      | some r =>
          if r.isEmpty then acc
          else
            match r.lookup name with
            | some v => dictInsert name v acc
            | none => acc) []

/-- The timer state: fields of `SplitsTimer.__init__`
(splits-timer.py:23-30), equally the free-standing timer globals of
splits.py:62-72. -/
structure SplitsTimer where
  current_split_index : ℤ
  start_time : ℚ
  split_times : List ℚ
  timer_running : Bool
  comparison_pb_segments : List (String × ℚ)
  comparison_best_segments : List (String × ℚ)
  comparison_pb_total : Option ℚ
deriving DecidableEq, Repr

/-- `SplitsTimer.__init__` (splits-timer.py:23-30). -/
def SplitsTimer.init : SplitsTimer :=
  { current_split_index := -1
    start_time := 0
    split_times := []
    timer_running := false
    comparison_pb_segments := []
    comparison_best_segments := []
    comparison_pb_total := none }

/-- `SplitsTimer.start` (splits-timer.py:32-62): compute the frozen
ComparisonSnapshot from the current history, then set `start_time =
now`, `timer_running = True`, `current_split_index = 0`, clear
`split_times`. -/
def SplitsTimer.start (t : SplitsTimer) (names : List String)
    (hist : SegmentHistory) (now : ℚ) : SplitsTimer :=
  let pb := findPB (hist.map Prod.snd)
  { t with
    comparison_pb_segments := snapshotPB names pb.1
    comparison_best_segments := snapshotBest names hist
    comparison_pb_total := pb.2
    start_time := now
    timer_running := true
    current_split_index := 0
    split_times := [] }

/-- `SplitsTimer.split` (splits-timer.py:64-77): no-op returning False
when not running; else append `now - start_time`; finish (running
becomes False, index unchanged) when `current_split_index >=
len(split_names) - 1`, else increment the index. -/
def SplitsTimer.split (t : SplitsTimer) (names : List String) (now : ℚ) :
    SplitsTimer × Bool :=
  if t.timer_running then
    let st := t.split_times ++ [now - t.start_time]
    if (names.length : ℤ) - 1 ≤ t.current_split_index then
      ({ t with split_times := st, timer_running := false }, true)
    else
      ({ t with split_times := st,
                current_split_index := t.current_split_index + 1 }, false)
  else (t, false)

/-- `SplitsTimer.reset` (splits-timer.py:79-83) / `reset_timer`
(splits.py:409-414): clear index, running flag and split times.  The
comparison snapshot fields are not touched. -/
def SplitsTimer.reset (t : SplitsTimer) : SplitsTimer :=
  { t with
    current_split_index := -1
    timer_running := false
    split_times := [] }

/-- `SplitsTimer.get_current_elapsed` (splits-timer.py:85-91). -/
def SplitsTimer.getCurrentElapsed (t : SplitsTimer) (now : ℚ) : ℚ :=
  if t.timer_running then now - t.start_time
  else
    match t.split_times.getLast? with
    | some x => x
    | none => 0

/-- Round half to even, Python's `round` on exact values. -/
def roundHalfEven (x : ℚ) : ℤ :=
  if x - ⌊x⌋ < 1 / 2 then ⌊x⌋
  else if 1 / 2 < x - ⌊x⌋ then ⌊x⌋ + 1
  else if ⌊x⌋ % 2 = 0 then ⌊x⌋ else ⌊x⌋ + 1

/-- Python `round(segment_time, 2)` (splits-timer.py:220). -/
def round2 (x : ℚ) : ℚ :=
  (roundHalfEven (x * 100) : ℚ) / 100

/-- The `run_data` dict built by `SplitsData.save_run`
(splits-timer.py:217-220) / `save_run_to_history` (splits.py:178-181):
per-segment duration `split_times[i] - (split_times[i-1] if i > 0 else
0)`, rounded to two decimal places. -/
def buildRunData (names : List String) (ts : List ℚ) : RunRecord :=
  (List.range names.length).foldl
    (fun acc i =>
      let prev := if 0 < i then ts.getD (i - 1) 0 else 0
      dictInsert (names.getD i "") (round2 (ts.getD i 0 - prev)) acc) []

/-- The history-owning state of `SplitsData` (splits-timer.py:106-117)
restricted to the fields the recorded claims touch. -/
structure SplitsData where
  split_names : List String
  segment_history : SegmentHistory
deriving DecidableEq, Repr

/-- `SplitsData.save_run` (splits-timer.py:209-223) /
`save_run_to_history` (splits.py:169-184): a no-op unless
`len(split_times) == len(split_names)`; else insert one RunRecord under
the fresh timestamp key (`datetime.now()`, passed here as `key`) and
save the file. -/
def SplitsData.save_run (d : SplitsData) (ts : List ℚ) (key : String) :
    SplitsData :=
  if ts.length = d.split_names.length then
    { d with segment_history :=
        dictInsert key (buildRunData d.split_names ts) d.segment_history }
  else d

/-- The plugin's combined mutable state: `SplitsPlugin.timer` and
`SplitsPlugin.data` (splits-timer.py:857-859). -/
structure PluginState where
  timer : SplitsTimer
  data : SplitsData
deriving DecidableEq, Repr

/-- `SplitsPlugin._on_split` (splits-timer.py:864-872) / `trigger_split`
(splits.py:359-406): start from Idle, else split while running (saving
the run when the split finishes it), else do nothing. -/
def onSplit (s : PluginState) (now : ℚ) (key : String) : PluginState :=
  if s.timer.timer_running = false ∧ s.timer.current_split_index = -1 then
    { s with timer :=
        s.timer.start s.data.split_names s.data.segment_history now }
  else if s.timer.timer_running then
    let res := s.timer.split s.data.split_names now
    if res.2 then
      { timer := res.1, data := s.data.save_run res.1.split_times key }
    else { s with timer := res.1 }
  else s

/-- Iterate `onSplit` over a list of (trigger time, run key) events. -/
def onSplits (s : PluginState) (evs : List (ℚ × String)) : PluginState :=
  evs.foldl (fun s e => onSplit s e.1 e.2) s

/-- `SplitsPlugin._on_reset` (splits-timer.py:874-876): reset the timer;
the history data is not touched. -/
def onReset (s : PluginState) : PluginState :=
  { s with timer := s.timer.reset }

/-- A `save_run` performed directly on the data store while a run is in
progress (a concurrent `recordRun` trigger); the timer state is not an
input of `save_run`. -/
def recordRunOn (s : PluginState) (ts : List ℚ) (key : String) :
    PluginState :=
  { s with data := s.data.save_run ts key }

/-- A JSON-like history value: the dynamically-typed `full_history`
trees that `_load_history` manipulates (numbers for durations, strings
for stray values, objects for nesting). -/
inductive JVal where
  | num (q : ℚ)
  | str (s : String)
  | obj (fields : List (String × JVal))

/-- The regex test `re.match(r'\d{4}-\d{2}-\d{2}', str(k))` of
`_load_history` (splits-timer.py:178) / `load_splits` (splits.py:139):
the key starts with four digits, a dash, two digits, a dash, two
digits. -/
def isTimestampShaped (s : String) : Bool :=
  match s.data with
  | d1 :: d2 :: d3 :: d4 :: h1 :: d5 :: d6 :: h2 :: d7 :: d8 :: _ =>
      d1.isDigit && d2.isDigit && d3.isDigit && d4.isDigit && h1 == '-' &&
      d5.isDigit && d6.isDigit && h2 == '-' && d7.isDigit && d8.isDigit
  | _ => false

/-- The legacy-flat-to-nested migration step of `_load_history`
(splits-timer.py:176-187) / `load_splits` (splits.py:137-147): when any
top-level key is timestamp-shaped, wrap the whole mapping as
`{game_name: {category_name: full_history}}`; otherwise leave it
unchanged. -/
def migrateHistory (game category : String) (h : List (String × JVal)) :
    List (String × JVal) :=
  if h.any (fun p => isTimestampShaped p.1) then
    [(game, JVal.obj [(category, JVal.obj h)])]
  else h

/-- Python values as they come out of `json.loads` in the socket
server. -/
inductive PyVal where
  | pynone
  | pybool (b : Bool)
  | pynum (q : ℚ)
  | pystr (s : String)
  | pylist (xs : List PyVal)
  | pyobj (fields : List (String × PyVal))

/-- The `{"response": "error", "error": "invalid_json"}` reply of
`_handle_client` (socket_server.py:101). -/
def invalidJsonResp : PyVal :=
  .pyobj [("response", .pystr "error"), ("error", .pystr "invalid_json")]

/-- The `{"response": "error", "error": "invalid_command"}` reply of
`_handle_client` (socket_server.py:97). -/
def invalidCommandResp : PyVal :=
  .pyobj [("response", .pystr "error"), ("error", .pystr "invalid_command")]

/-- The test `isinstance(command, dict) and 'command' in command` of
`_handle_client` (socket_server.py:96). -/
def isCmdObj : PyVal → Bool
  | .pyobj fields => fields.any (fun p => p.1 == "command")
  | _ => false

/-- `SplitSocketServer._handle_client` (socket_server.py:86-105) at the
value level.  An empty payload returns early with no response
(line 91-92).  At line 95 the payload is first decoded as UTF-8 text;
on non-UTF-8 bytes `data.decode('utf-8')` raises `UnicodeDecodeError`,
which the `except json.JSONDecodeError` handler (line 100) does NOT
catch, so it escapes to the outer `except Exception` (line 107) and no
response is sent — the `decodeUtf8 = none` branch.  Text that
`json.loads` rejects is answered with `invalid_json`; a parsed value
that is not a dict containing a `command` key with `invalid_command`;
otherwise the injected handler's result is sent back.  UTF-8 decoding
and JSON parsing are the Python standard library, not repository code,
so both are modelled as oracles. -/
def handleClient (data : List ℕ) (decodeUtf8 : List ℕ → Option String)
    (loads : String → Option PyVal) (handler : PyVal → PyVal) :
    Option PyVal :=
  if data = [] then none
  else
    match decodeUtf8 data with
    | none => none
    | some s =>
        match loads s with
        | none => some invalidJsonResp
        | some v =>
            if isCmdObj v then some (handler v) else some invalidCommandResp

/-- The per-segment duration that `save_run` derives from the cumulative
split times: `split_times[i] - (split_times[i-1] if i > 0 else 0)`
(splits-timer.py:218-219). -/
def segDur (ts : List ℚ) (i : ℕ) : ℚ :=
  ts.getD i 0 - (if 0 < i then ts.getD (i - 1) 0 else 0)

/-- Observation used to separate history trees: the key list of the
object two levels below the first top-level entry. -/
def innerKeys : List (String × JVal) → Option (List String)
  | (_, JVal.obj inner) :: _ =>
      match inner with
      | (_, JVal.obj inner2) :: _ => some (inner2.map Prod.fst)
      | _ => none
  | _ => none

/-- C6: from every engine state, `reset()` yields `currentIndex = -1`,
`running = false`, `splitTimes = []`, and performs no write to the
segment history (the data store is untouched; the history file is only
written from `save_run` / `_save_history`, which reset never calls). -/
theorem c6_reset_frame (s : PluginState) :
    (onReset s).timer.current_split_index = -1 ∧
    (onReset s).timer.timer_running = false ∧
    (onReset s).timer.split_times = [] ∧
    (onReset s).data = s.data ∧
    (onReset s).data.segment_history = s.data.segment_history :=
  ⟨rfl, rfl, rfl, rfl, rfl⟩

/-- C7 counterexample: after a `start()` on a one-run history the
snapshot field `comparison_pb_total` holds `some 40`; `reset()` leaves
it at exactly that value, so the snapshot fields do still hold the
values captured at the preceding `start()`, contrary to the claim. -/
theorem c7_cex :
    ((SplitsTimer.init.start ["A"] [("k", [("A", 40)])] 0).reset).comparison_pb_total
        = (SplitsTimer.init.start ["A"] [("k", [("A", 40)])] 0).comparison_pb_total ∧
      (SplitsTimer.init.start ["A"] [("k", [("A", 40)])] 0).comparison_pb_total
        = some 40 :=
  ⟨rfl, by simp [SplitsTimer.start, findPB, pbStep, runTotal]⟩

/-- C7 (amended): `reset()` clears `currentIndex`, `running` and
`splitTimes`, but leaves the three ComparisonSnapshot fields exactly as
they were; the stale snapshot is only replaced by the next `start()`. -/
theorem c7_reset_keeps_snapshot (t : SplitsTimer) :
    t.reset.comparison_pb_segments = t.comparison_pb_segments ∧
    t.reset.comparison_best_segments = t.comparison_best_segments ∧
    t.reset.comparison_pb_total = t.comparison_pb_total ∧
    t.reset.current_split_index = -1 ∧
    t.reset.timer_running = false ∧
    t.reset.split_times = [] :=
  ⟨rfl, rfl, rfl, rfl, rfl, rfl⟩

/-- C1: the ComparisonSnapshot computed by a `start()` from Idle is the
pure function of the history passed to `start` (`findPB`,
`snapshotPB`, `snapshotBest`), and a `save_run` performed at any later
point of the run leaves all three snapshot fields exactly as
captured. -/
theorem c1_snapshot_frozen (t : SplitsTimer) (names : List String)
    (hist : SegmentHistory) (t0 : ℚ) (k0 : String) (ts : List ℚ)
    (key : String) (hrun : t.timer_running = false)
    (hidx : t.current_split_index = -1) :
    (recordRunOn (onSplit ⟨t, ⟨names, hist⟩⟩ t0 k0) ts key).timer.comparison_pb_segments
        = (onSplit ⟨t, ⟨names, hist⟩⟩ t0 k0).timer.comparison_pb_segments ∧
    (recordRunOn (onSplit ⟨t, ⟨names, hist⟩⟩ t0 k0) ts key).timer.comparison_best_segments
        = (onSplit ⟨t, ⟨names, hist⟩⟩ t0 k0).timer.comparison_best_segments ∧
    (recordRunOn (onSplit ⟨t, ⟨names, hist⟩⟩ t0 k0) ts key).timer.comparison_pb_total
        = (onSplit ⟨t, ⟨names, hist⟩⟩ t0 k0).timer.comparison_pb_total ∧
    (onSplit ⟨t, ⟨names, hist⟩⟩ t0 k0).timer.comparison_pb_total
        = (findPB (hist.map Prod.snd)).2 ∧
    (onSplit ⟨t, ⟨names, hist⟩⟩ t0 k0).timer.comparison_pb_segments
        = snapshotPB names (findPB (hist.map Prod.snd)).1 ∧
    (onSplit ⟨t, ⟨names, hist⟩⟩ t0 k0).timer.comparison_best_segments
        = snapshotBest names hist := by
  have hstart : onSplit ⟨t, ⟨names, hist⟩⟩ t0 k0 =
      ⟨t.start names hist t0, ⟨names, hist⟩⟩ := by
    simp [onSplit, hrun, hidx]
  refine ⟨rfl, rfl, rfl, ?_, ?_, ?_⟩ <;> rw [hstart] <;> rfl

/-- C1 witness: the frozen-snapshot theorem applied to a concrete idle
state, a one-run history and a concrete mid-run `save_run`. -/
theorem c1_snapshot_frozen_witness :
    (recordRunOn (onSplit ⟨SplitsTimer.init, ⟨["A"], [("k", [("A", 40)])]⟩⟩ 0 "k0") [7] "key").timer.comparison_pb_segments
        = (onSplit ⟨SplitsTimer.init, ⟨["A"], [("k", [("A", 40)])]⟩⟩ 0 "k0").timer.comparison_pb_segments ∧
    (recordRunOn (onSplit ⟨SplitsTimer.init, ⟨["A"], [("k", [("A", 40)])]⟩⟩ 0 "k0") [7] "key").timer.comparison_best_segments
        = (onSplit ⟨SplitsTimer.init, ⟨["A"], [("k", [("A", 40)])]⟩⟩ 0 "k0").timer.comparison_best_segments ∧
    (recordRunOn (onSplit ⟨SplitsTimer.init, ⟨["A"], [("k", [("A", 40)])]⟩⟩ 0 "k0") [7] "key").timer.comparison_pb_total
        = (onSplit ⟨SplitsTimer.init, ⟨["A"], [("k", [("A", 40)])]⟩⟩ 0 "k0").timer.comparison_pb_total ∧
    (onSplit ⟨SplitsTimer.init, ⟨["A"], [("k", [("A", 40)])]⟩⟩ 0 "k0").timer.comparison_pb_total
        = (findPB ([("k", [("A", 40)])].map Prod.snd)).2 ∧
    (onSplit ⟨SplitsTimer.init, ⟨["A"], [("k", [("A", 40)])]⟩⟩ 0 "k0").timer.comparison_pb_segments
        = snapshotPB ["A"] (findPB ([("k", [("A", 40)])].map Prod.snd)).1 ∧
    (onSplit ⟨SplitsTimer.init, ⟨["A"], [("k", [("A", 40)])]⟩⟩ 0 "k0").timer.comparison_best_segments
        = snapshotBest ["A"] [("k", [("A", 40)])] :=
  c1_snapshot_frozen SplitsTimer.init ["A"] [("k", [("A", 40)])] 0 "k0"
    [7] "key" rfl rfl

/-- C5 counterexample: two payloads that are not decodable as JSON yet
get no `invalid_json` response.  The empty payload (a client that
closes without sending) returns early before decoding; the single byte
255 (`b'\xff'`) is not valid UTF-8, so `data.decode('utf-8')` raises
`UnicodeDecodeError` past the `json.JSONDecodeError` handler and no
response is sent. -/
theorem c5_cex :
    handleClient [] (fun _ => none) (fun _ => none) (fun v => v) = none ∧
    handleClient [] (fun _ => none) (fun _ => none) (fun v => v)
      ≠ some invalidJsonResp ∧
    handleClient [255] (fun _ => none) (fun _ => none) (fun v => v) = none ∧
    handleClient [255] (fun _ => none) (fun _ => none) (fun v => v)
      ≠ some invalidJsonResp :=
  ⟨rfl, fun h => Option.noConfusion h, rfl, fun h => Option.noConfusion h⟩

/-- C5 (amended): for every NON-EMPTY byte string received on one
connection that decodes as UTF-8 text, the per-client handling
responds `invalid_json` when the text is not parseable as JSON,
`invalid_command` when the parsed value is not a dict containing a
`command` key, and otherwise the injected handler's result; an empty
payload, or a non-UTF-8 payload (whose `UnicodeDecodeError` escapes
the `json.JSONDecodeError` handler), gets no response at all. -/
theorem c5_handle_client (data : List ℕ)
    (decodeUtf8 : List ℕ → Option String) (loads : String → Option PyVal)
    (handler : PyVal → PyVal) (hne : data ≠ []) :
    (decodeUtf8 data = none →
        handleClient data decodeUtf8 loads handler = none) ∧
    (∀ s, decodeUtf8 data = some s → loads s = none →
        handleClient data decodeUtf8 loads handler = some invalidJsonResp) ∧
    (∀ s v, decodeUtf8 data = some s → loads s = some v →
        isCmdObj v = false →
        handleClient data decodeUtf8 loads handler
          = some invalidCommandResp) ∧
    (∀ s v, decodeUtf8 data = some s → loads s = some v →
        isCmdObj v = true →
        handleClient data decodeUtf8 loads handler = some (handler v)) := by
  refine ⟨fun h => ?_, fun s hs hl => ?_, fun s v hs hv hc => ?_,
    fun s v hs hv hc => ?_⟩
  · simp [handleClient, hne, h]
  · simp [handleClient, hne, hs, hl]
  · simp [handleClient, hne, hs, hv, hc]
  · simp [handleClient, hne, hs, hv, hc]

/-- C5 witness: the amended theorem applied to concrete one-byte
payloads: a non-UTF-8 one (no response), a UTF-8 one that is not JSON,
a decodable non-command object (the `foo: 1` scenario) and a
`command: split` object. -/
theorem c5_handle_client_witness :
    handleClient [255] (fun _ => none) (fun _ => none) (fun v => v)
      = none ∧
    handleClient [123] (fun _ => some "not json") (fun _ => none)
      (fun v => v) = some invalidJsonResp ∧
    handleClient [123] (fun _ => some "obj")
      (fun _ => some (PyVal.pyobj [("foo", PyVal.pynum 1)]))
      (fun v => v) = some invalidCommandResp ∧
    handleClient [123] (fun _ => some "obj")
      (fun _ => some (PyVal.pyobj [("command", PyVal.pystr "split")]))
      (fun v => v) = some (PyVal.pyobj [("command", PyVal.pystr "split")]) :=
  ⟨(c5_handle_client [255] (fun _ => none) (fun _ => none) (fun v => v)
      (by decide)).1 rfl,
   (c5_handle_client [123] (fun _ => some "not json") (fun _ => none)
      (fun v => v) (by decide)).2.1 _ rfl rfl,
   (c5_handle_client [123] (fun _ => some "obj")
      (fun _ => some (PyVal.pyobj [("foo", PyVal.pynum 1)]))
      (fun v => v) (by decide)).2.2.1 _ _ rfl rfl rfl,
   (c5_handle_client [123] (fun _ => some "obj")
      (fun _ => some (PyVal.pyobj [("command", PyVal.pystr "split")]))
      (fun v => v) (by decide)).2.2.2 _ _ rfl rfl rfl⟩

/-- C3 counterexample: with the active game itself named in timestamp
shape (`"2024-01-01"`), a migrated tree's top-level key is again
timestamp-shaped, so a second application of the migration step wraps
the tree a second time instead of being a no-op. -/
theorem c3_cex :
    migrateHistory "2024-01-01" "Any%" (migrateHistory "2024-01-01" "Any%"
        [("2023-05-05 10:00:00", JVal.obj [("A", JVal.num 40)])]) ≠
      migrateHistory "2024-01-01" "Any%"
        [("2023-05-05 10:00:00", JVal.obj [("A", JVal.num 40)])] :=
  fun heq => absurd (congrArg innerKeys heq) (by decide)

/-- C3 (amended): the flat-to-nested migration step is idempotent
whenever the active game name is not itself timestamp-shaped: a tree
produced by one migration then has no timestamp-shaped top-level key,
so the second application is a no-op. -/
theorem c3_migration_idempotent (game category : String)
    (h : List (String × JVal)) (hg : isTimestampShaped game = false) :
    migrateHistory game category (migrateHistory game category h) =
      migrateHistory game category h := by
  unfold migrateHistory
  by_cases hc : h.any (fun p => isTimestampShaped p.1)
  · simp [hc, hg]
  · simp [hc]

/-- C3 witness: idempotence at a concrete legacy-flat history under the
game name `"Celeste"`. -/
theorem c3_migration_idempotent_witness :
    migrateHistory "Celeste" "Any%" (migrateHistory "Celeste" "Any%"
        [("2023-05-05 10:00:00", JVal.obj [("A", JVal.num 40)])]) =
      migrateHistory "Celeste" "Any%"
        [("2023-05-05 10:00:00", JVal.obj [("A", JVal.num 40)])] :=
  c3_migration_idempotent "Celeste" "Any%"
    [("2023-05-05 10:00:00", JVal.obj [("A", JVal.num 40)])] (by decide)

/-- A fold of `min` never exceeds its initial accumulator. -/
theorem foldl_min_le_init (xs : List ℚ) (a : ℚ) : xs.foldl min a ≤ a := by
  induction xs generalizing a with
  | nil => simp
  | cons x xs ih =>
      calc (x :: xs).foldl min a = xs.foldl min (min a x) := rfl
      _ ≤ min a x := ih (min a x)
      _ ≤ a := min_le_left a x

/-- A fold of `min` never exceeds any member of the list. -/
theorem foldl_min_le_mem (xs : List ℚ) :
    ∀ a y, y ∈ xs → xs.foldl min a ≤ y := by
  induction xs with
  | nil => intro a y hy; cases hy
  | cons x xs ih =>
      intro a y hy
      rcases List.mem_cons.mp hy with h | h
      · subst h
        exact le_trans (foldl_min_le_init xs (min a y)) (min_le_right a y)
      · exact ih (min a x) y h

/-- A fold of `min` equals the initial accumulator or some member. -/
theorem foldl_min_mem (xs : List ℚ) (a : ℚ) :
    xs.foldl min a = a ∨ xs.foldl min a ∈ xs := by
  induction xs generalizing a with
  | nil => exact Or.inl rfl
  | cons x xs ih =>
      have hstep : (x :: xs).foldl min a = xs.foldl min (min a x) := rfl
      rcases ih (min a x) with h | h
      · rw [hstep, h]
        rcases min_choice a x with hc | hc
        · exact Or.inl hc
        · refine Or.inr ?_
          rw [hc]
          exact List.mem_cons_self x xs
      · refine Or.inr ?_
        rw [hstep]
        exact List.mem_cons_of_mem x h

/-- C9: `_get_best_segment` returns `none` (rather than failing)
whenever the index is out of range; for an in-range index the result is
`none` exactly when no RunRecord contains the segment name, and any
returned value is the minimum duration recorded for that name across
all RunRecords of the history. -/
theorem c9_best_segment (index : ℤ) (names : List String)
    (hist : SegmentHistory) :
    ((index < 0 ∨ (names.length : ℤ) ≤ index) →
        getBestSegment index names hist = none) ∧
    (0 ≤ index → index < (names.length : ℤ) →
      (getBestSegment index names hist = none ↔
          segTimes (names.getD index.toNat "") hist = []) ∧
      ∀ m, getBestSegment index names hist = some m →
        m ∈ segTimes (names.getD index.toNat "") hist ∧
        ∀ v ∈ segTimes (names.getD index.toNat "") hist, m ≤ v) := by
  constructor
  · intro h
    simp [getBestSegment, h]
  · intro h0 h1
    have hin : ¬ (index < 0 ∨ (names.length : ℤ) ≤ index) := by omega
    rw [getBestSegment, if_neg hin]
    constructor
    · cases hts : segTimes (names.getD index.toNat "") hist with
      | nil => simp [listMin]
      | cons x xs => simp [listMin]
    · intro m hm
      cases hts : segTimes (names.getD index.toNat "") hist with
      | nil => rw [hts] at hm; exact absurd hm (by simp [listMin])
      | cons x xs =>
          rw [hts] at hm
          have hmx : xs.foldl min x = m := by
            simpa [listMin] using hm
          subst hmx
          constructor
          · rcases foldl_min_mem xs x with h | h
            · rw [h]
              exact List.mem_cons_self x xs
            · exact List.mem_cons_of_mem x h
          · intro v hv
            rcases List.mem_cons.mp hv with h | h
            · subst h
              exact foldl_min_le_init xs v
            · exact foldl_min_le_mem xs x v h

/-- C9 witness: the best-segment theorem applied to a concrete
out-of-range index, and, at in-range index 0 over a two-run history,
to the concretely computed result 3, which is therefore one of the
recorded durations for segment `A`. -/
theorem c9_best_segment_witness :
    getBestSegment 5 ["A"] [("k1", [("A", 5)]), ("k2", [("A", 3)])] = none ∧
    (3 : ℚ) ∈ segTimes (["A"].getD (0 : ℤ).toNat "")
      [("k1", [("A", 5)]), ("k2", [("A", 3)])] :=
  ⟨(c9_best_segment 5 ["A"] [("k1", [("A", 5)]), ("k2", [("A", 3)])]).1
      (Or.inr (by decide)),
   (((c9_best_segment 0 ["A"] [("k1", [("A", 5)]), ("k2", [("A", 3)])]).2
      (by decide) (by decide)).2 3
      (by simp [getBestSegment, segTimes, listMin, List.lookup]
          norm_num)).1⟩

/-- Characterization of the PB fold started at a first run: it returns
the earliest run attaining the minimum total, together with that
total. -/
theorem pb_fold_char (runs : List RunRecord) :
    ∀ r0 : RunRecord, ∃ i r, (r0 :: runs)[i]? = some r ∧
      runs.foldl pbStep (some r0, some (runTotal r0)) =
        (some r, some (runTotal r)) ∧
      (∀ (j : ℕ) (x : RunRecord), (r0 :: runs)[j]? = some x →
        runTotal r ≤ runTotal x) ∧
      (∀ (j : ℕ) (x : RunRecord), j < i → (r0 :: runs)[j]? = some x →
        runTotal r < runTotal x) := by
  induction runs with
  | nil =>
      intro r0
      refine ⟨0, r0, by simp, rfl, ?_, ?_⟩
      · intro j x hj
        cases j with
        | zero =>
            simp only [List.getElem?_cons_zero, Option.some.injEq] at hj
            subst hj
            exact le_refl _
        | succ n => simp at hj
      · intro j x hjlt
        exact absurd hjlt (Nat.not_lt_zero j)
  | cons y ys ih =>
      intro r0
      by_cases hy : runTotal y < runTotal r0
      · have hstep : pbStep (some r0, some (runTotal r0)) y =
            (some y, some (runTotal y)) := by
          simp [pbStep, hy]
        obtain ⟨i, r, hget, hfold, hle, hlt⟩ := ih y
        refine ⟨i + 1, r, by simpa using hget, ?_, ?_, ?_⟩
        · rw [List.foldl_cons, hstep]
          exact hfold
        · intro j x hj
          cases j with
          | zero =>
              simp only [List.getElem?_cons_zero, Option.some.injEq] at hj
              subst hj
              exact le_trans (hle 0 y (by simp)) (le_of_lt hy)
          | succ n =>
              exact hle n x (by simpa using hj)
        · intro j x hjlt hj
          cases j with
          | zero =>
              simp only [List.getElem?_cons_zero, Option.some.injEq] at hj
              subst hj
              exact lt_of_le_of_lt (hle 0 y (by simp)) hy
          | succ n =>
              exact hlt n x (Nat.lt_of_succ_lt_succ hjlt) (by simpa using hj)
      · have hstep : pbStep (some r0, some (runTotal r0)) y =
            (some r0, some (runTotal r0)) := by
          simp [pbStep, hy]
        have hyge : runTotal r0 ≤ runTotal y := not_lt.mp hy
        obtain ⟨i, r, hget, hfold, hle, hlt⟩ := ih r0
        cases i with
        | zero =>
            simp only [List.getElem?_cons_zero, Option.some.injEq] at hget
            subst hget
            refine ⟨0, r0, by simp, ?_, ?_, ?_⟩
            · rw [List.foldl_cons, hstep]
              exact hfold
            · intro j x hj
              cases j with
              | zero =>
                  simp only [List.getElem?_cons_zero, Option.some.injEq] at hj
                  subst hj
                  exact le_refl _
              | succ n =>
                  cases n with
                  | zero =>
                      simp only [List.getElem?_cons_succ,
                        List.getElem?_cons_zero, Option.some.injEq] at hj
                      subst hj
                      exact hyge
                  | succ k =>
                      exact hle (k + 1) x (by simpa using hj)
            · intro j x hjlt
              exact absurd hjlt (Nat.not_lt_zero j)
        | succ i' =>
            have hget' : ys[i']? = some r := by simpa using hget
            refine ⟨i' + 2, r, by simpa using hget', ?_, ?_, ?_⟩
            · rw [List.foldl_cons, hstep]
              exact hfold
            · intro j x hj
              cases j with
              | zero =>
                  simp only [List.getElem?_cons_zero, Option.some.injEq] at hj
                  subst hj
                  have h0 : (r0 :: ys)[0]? = some r0 := by simp
                  exact hle 0 r0 h0
              | succ n =>
                  cases n with
                  | zero =>
                      simp only [List.getElem?_cons_succ,
                        List.getElem?_cons_zero, Option.some.injEq] at hj
                      subst hj
                      exact le_trans (hle 0 r0 (by simp)) hyge
                  | succ k =>
                      exact hle (k + 1) x (by simpa using hj)
            · intro j x hjlt hj
              cases j with
              | zero =>
                  simp only [List.getElem?_cons_zero, Option.some.injEq] at hj
                  subst hj
                  have h0 : (r0 :: ys)[0]? = some r0 := by simp
                  exact hlt 0 r0 (Nat.succ_pos i') h0
              | succ n =>
                  cases n with
                  | zero =>
                      simp only [List.getElem?_cons_succ,
                        List.getElem?_cons_zero, Option.some.injEq] at hj
                      subst hj
                      exact lt_of_lt_of_le (hlt 0 r0 (Nat.succ_pos i') (by simp))
                        hyge
                  | succ k =>
                      exact hlt (k + 1) x (by omega) (by simpa using hj)

/-- C8: the personal-best computation over a segment history returns
`(none, none)` on an empty history; on a non-empty history it returns
some stored RunRecord together with its total, that total is the
minimum over all runs, and the returned run is the first one attaining
the minimum in iteration order; in particular a history with totals 50
and 40 yields the 40 run and pbTotal = 40. -/
theorem c8_personal_best (hist : SegmentHistory) :
    (hist = [] → findPB (hist.map Prod.snd) = (none, none)) ∧
    (hist ≠ [] → ∃ i r, (hist.map Prod.snd)[i]? = some r ∧
        findPB (hist.map Prod.snd) = (some r, some (runTotal r)) ∧
        (∀ (j : ℕ) (x : RunRecord), (hist.map Prod.snd)[j]? = some x →
          runTotal r ≤ runTotal x) ∧
        (∀ (j : ℕ) (x : RunRecord), j < i →
          (hist.map Prod.snd)[j]? = some x → runTotal r < runTotal x)) ∧
    findPB [[("r1", 50)], [("r2", 40)]] = (some [("r2", 40)], some 40) := by
  refine ⟨fun h => by subst h; rfl, fun hne => ?_,
    by norm_num [findPB, pbStep, runTotal]⟩
  obtain ⟨p, hs, hcons⟩ : ∃ p hs, hist = p :: hs := by
    cases hist with
    | nil => exact absurd rfl hne
    | cons p hs => exact ⟨p, hs, rfl⟩
  subst hcons
  have hfold0 : findPB ((p :: hs).map Prod.snd) =
      (hs.map Prod.snd).foldl pbStep (some p.2, some (runTotal p.2)) := rfl
  obtain ⟨i, r, hget, hfoldc, hle, hlt⟩ := pb_fold_char (hs.map Prod.snd) p.2
  refine ⟨i, r, by simpa using hget, hfold0.trans hfoldc, ?_, ?_⟩
  · intro j x hj
    exact hle j x (by simpa using hj)
  · intro j x hjlt hj
    exact hlt j x hjlt (by simpa using hj)

/-- C8 witness: the personal-best theorem applied to the empty history
(first conjunct) and its concrete 50/40 scenario conjunct. -/
theorem c8_personal_best_witness :
    findPB (([] : SegmentHistory).map Prod.snd) = (none, none) ∧
    findPB [[("r1", 50)], [("r2", 40)]] = (some [("r2", 40)], some 40) :=
  ⟨(c8_personal_best []).1 rfl, (c8_personal_best []).2.2⟩

/-- Round-half-to-even is within one half of its argument. -/
theorem abs_roundHalfEven_sub_le (y : ℚ) :
    |(roundHalfEven y : ℚ) - y| ≤ 1 / 2 := by
  have hfl : (⌊y⌋ : ℚ) ≤ y := Int.floor_le y
  have hfu : y < ⌊y⌋ + 1 := Int.lt_floor_add_one y
  unfold roundHalfEven
  by_cases h1 : y - ⌊y⌋ < 1 / 2
  · rw [if_pos h1, abs_le]
    constructor <;> linarith
  · rw [if_neg h1]
    have h1' : 1 / 2 ≤ y - ⌊y⌋ := not_lt.mp h1
    by_cases h2 : 1 / 2 < y - ⌊y⌋
    · rw [if_pos h2]
      push_cast
      rw [abs_le]
      constructor <;> linarith
    · rw [if_neg h2]
      have h2' : y - ⌊y⌋ ≤ 1 / 2 := not_lt.mp h2
      by_cases h3 : ⌊y⌋ % 2 = 0
      · rw [if_pos h3, abs_le]
        constructor <;> linarith
      · rw [if_neg h3]
        push_cast
        rw [abs_le]
        constructor <;> linarith

/-- Two-decimal rounding is within 1/200 of its argument. -/
theorem abs_round2_sub_le (x : ℚ) : |round2 x - x| ≤ 1 / 200 := by
  have h := abs_roundHalfEven_sub_le (x * 100)
  have heq : round2 x - x = ((roundHalfEven (x * 100) : ℚ) - x * 100) / 100 := by
    unfold round2
    ring
  rw [heq, abs_div]
  rw [show |(100 : ℚ)| = 100 from abs_of_pos (by norm_num)]
  linarith

/-- `dictInsert` with a key absent from the dict appends the pair. -/
theorem dictInsert_of_not_mem {α : Type} (k : String) (v : α)
    (m : List (String × α)) (h : ∀ p ∈ m, p.1 ≠ k) :
    dictInsert k v m = m ++ [(k, v)] := by
  have hfalse : ¬ (m.any (fun p => p.1 == k) = true) := by
    simp only [List.any_eq_true, not_exists, not_and]
    intro p hp
    simpa using h p hp
  unfold dictInsert
  rw [if_neg hfalse]

/-- On a duplicate-free name list the `run_data` dict built by
`save_run` is exactly one entry per segment index, in order. -/
theorem buildRunData_eq_map (names : List String) (ts : List ℚ)
    (hnd : names.Nodup) :
    buildRunData names ts = (List.range names.length).map
      (fun i => (names.getD i "", round2 (segDur ts i))) := by
  suffices hgen : ∀ n, n ≤ names.length →
      (List.range n).foldl
        (fun acc i =>
          let prev := if 0 < i then ts.getD (i - 1) 0 else 0
          dictInsert (names.getD i "") (round2 (ts.getD i 0 - prev)) acc) [] =
      (List.range n).map (fun i => (names.getD i "", round2 (segDur ts i))) by
    exact hgen names.length (le_refl _)
  intro n
  induction n with
  | zero => intro _; rfl
  | succ m ih =>
      intro hm
      rw [List.range_succ, List.foldl_append, List.map_append,
        ih (Nat.le_of_succ_le hm)]
      simp only [List.foldl_cons, List.foldl_nil, List.map_cons, List.map_nil]
      rw [dictInsert_of_not_mem]
      · rfl
      · intro p hp
        obtain ⟨i, hi, hpe⟩ := List.mem_map.mp hp
        have him : i < m := List.mem_range.mp hi
        have hil : i < names.length := lt_of_lt_of_le him
          (Nat.le_of_succ_le hm)
        have hml : m < names.length := hm
        rw [← hpe]
        simp only
        rw [List.getD_eq_getElem names "" hil, List.getD_eq_getElem names "" hml]
        intro he
        exact absurd ((List.Nodup.getElem_inj_iff hnd).mp he)
          (Nat.ne_of_lt him)

/-- The per-segment durations telescope back to the last cumulative
split time. -/
theorem sum_segDur (ts : List ℚ) :
    ∀ n, 0 < n → ((List.range n).map (fun i => segDur ts i)).sum =
      ts.getD (n - 1) 0 := by
  intro n
  induction n with
  | zero => intro h; exact absurd h (lt_irrefl 0)
  | succ m ih =>
      intro _
      rcases Nat.eq_zero_or_pos m with h0 | hpos
      · subst h0
        rw [show List.range 1 = [0] from rfl]
        simp [segDur]
      · rw [List.range_succ, List.map_append, List.sum_append, ih hpos]
        simp only [List.map_cons, List.map_nil, List.sum_cons, List.sum_nil]
        rw [segDur, if_pos hpos]
        have hm1 : m + 1 - 1 = m := rfl
        rw [hm1]
        ring

/-- Summing two-decimal roundings stays within `length / 200` of the
exact sum. -/
theorem sum_round2_close (ds : List ℚ) :
    |(ds.map round2).sum - ds.sum| ≤ (ds.length : ℚ) * (1 / 200) := by
  induction ds with
  | nil => simp
  | cons d ds ih =>
      simp only [List.map_cons, List.sum_cons, List.length_cons]
      have h1 := abs_round2_sub_le d
      calc |round2 d + (ds.map round2).sum - (d + ds.sum)|
          = |(round2 d - d) + ((ds.map round2).sum - ds.sum)| := by ring_nf
        _ ≤ |round2 d - d| + |(ds.map round2).sum - ds.sum| := abs_add _ _
        _ ≤ 1 / 200 + (ds.length : ℚ) * (1 / 200) := add_le_add h1 ih
        _ = ((ds.length : ℚ) + 1) * (1 / 200) := by ring
        _ = ((ds.length + 1 : ℕ) : ℚ) * (1 / 200) := by push_cast; ring

/-- Looking up a key of a key-nodup association list finds its value. -/
theorem lookup_of_mem_of_nodup {α : Type} (m : List (String × α))
    (k : String) (v : α) (hmem : (k, v) ∈ m)
    (hnd : (m.map Prod.fst).Nodup) : m.lookup k = some v := by
  induction m with
  | nil => cases hmem
  | cons p rest ih =>
      rw [List.map_cons] at hnd
      obtain ⟨hhead, htail⟩ := List.nodup_cons.mp hnd
      rcases List.mem_cons.mp hmem with h | h
      · rw [← h]
        simp [List.lookup]
      · have hne : p.1 ≠ k := by
          intro he
          apply hhead
          rw [he]
          exact List.mem_map.mpr ⟨(k, v), h, rfl⟩
        have hk : (k == p.1) = false := by
          simp only [beq_eq_false_iff_ne]
          exact fun he => hne he.symm
        cases p with
        | mk a b =>
            simp only at hk
            simp only [List.lookup, hk]
            exact ih h htail

/-- The keys of a `run_data` dict built over duplicate-free names are
duplicate-free. -/
theorem buildRunData_keys_nodup (names : List String) (ts : List ℚ)
    (hnd : names.Nodup) :
    ((buildRunData names ts).map Prod.fst).Nodup := by
  rw [buildRunData_eq_map names ts hnd, List.map_map]
  refine (List.nodup_range _).map_on ?_
  intro x hx y hy he
  have hxl : x < names.length := List.mem_range.mp hx
  have hyl : y < names.length := List.mem_range.mp hy
  have hgd : names.getD x "" = names.getD y "" := he
  rw [List.getD_eq_getElem names "" hxl, List.getD_eq_getElem names "" hyl]
    at hgd
  exact (List.Nodup.getElem_inj_iff hnd).mp hgd

/-- C4 counterexample: three segments of duration 0.004 each
(cumulative times 0.004, 0.008, 0.012) all round to 0.00, so the stored
record sums to 0 while `splitTimes[-1]` is 0.012: the gap 0.012 exceeds
the fixed two-decimal-place tolerance 0.01. -/
theorem c4_cex :
    runTotal (buildRunData ["A", "B", "C"] [1/250, 1/125, 3/250]) = 0 ∧
    ¬ (|runTotal (buildRunData ["A", "B", "C"] [1/250, 1/125, 3/250]) -
        (3/250 : ℚ)| ≤ 1/100) := by
  have hr : round2 (1/250 : ℚ) = 0 := by
    norm_num [round2, roundHalfEven, Int.fract]
  have hb := buildRunData_eq_map ["A", "B", "C"] [1/250, 1/125, 3/250]
    (by decide)
  have h0 : runTotal (buildRunData ["A", "B", "C"]
      [1/250, 1/125, 3/250]) = 0 := by
    rw [hb]
    norm_num [runTotal, List.range_succ, segDur, hr]
  refine ⟨h0, ?_⟩
  rw [h0]
  rw [show |(0:ℚ) - 3/250| = 3/250 by rw [abs_sub_comm]; norm_num [abs_of_pos]]
  norm_num

/-- C4 (amended): for a completed run saved with
`len(splitTimes) == len(splitNames)` over duplicate-free segment names,
the stored RunRecord maps each segment name to its per-segment duration
rounded to two decimal places, `save_run` stores exactly that record
under the given timestamp key, and the sum of the stored values equals
the final cumulative split time within `N * 0.005` (N per-segment
half-unit rounding errors can accumulate; a fixed 0.01 bound fails, see
the counterexample). -/
theorem c4_save_run_record (names : List String) (ts : List ℚ)
    (hnd : names.Nodup) (hlen : ts.length = names.length)
    (hpos : 0 < names.length) :
    (∀ i, i < names.length →
      (buildRunData names ts).lookup (names.getD i "") =
        some (round2 (segDur ts i))) ∧
    |runTotal (buildRunData names ts) - ts.getD (names.length - 1) 0| ≤
      (names.length : ℚ) * (1 / 200) ∧
    (∀ (d : SplitsData) (key : String), d.split_names = names →
      d.save_run ts key =
        { d with segment_history :=
            dictInsert key (buildRunData names ts) d.segment_history }) := by
  have hb := buildRunData_eq_map names ts hnd
  refine ⟨?_, ?_, ?_⟩
  · intro i hi
    apply lookup_of_mem_of_nodup
    · rw [hb]
      exact List.mem_map.mpr ⟨i, List.mem_range.mpr hi, rfl⟩
    · exact buildRunData_keys_nodup names ts hnd
  · rw [hb]
    unfold runTotal
    have hmm : ((List.range names.length).map
        (fun i => (names.getD i "", round2 (segDur ts i)))).map Prod.snd =
        ((List.range names.length).map (fun i => segDur ts i)).map round2 := by
      rw [List.map_map, List.map_map]
      rfl
    rw [hmm, ← sum_segDur ts names.length hpos]
    have hclose := sum_round2_close
      ((List.range names.length).map (fun i => segDur ts i))
    simpa using hclose
  · intro d key hdn
    unfold SplitsData.save_run
    rw [if_pos (by rw [hdn, hlen]), hdn]

/-- C4 witness: the amended save-run theorem applied to two segments
with cumulative times 1 and 2, at index 0, and to a concrete data
store with the key `"k"`. -/
theorem c4_save_run_record_witness :
    (buildRunData ["A", "B"] [1, 2]).lookup
        ((["A", "B"] : List String).getD 0 "") =
      some (round2 (segDur [1, 2] 0)) ∧
    |runTotal (buildRunData ["A", "B"] [1, 2]) -
        ([1, 2] : List ℚ).getD ((["A", "B"] : List String).length - 1) 0| ≤
      ((["A", "B"] : List String).length : ℚ) * (1 / 200) ∧
    SplitsData.save_run ⟨["A", "B"], []⟩ [1, 2] "k" =
      ⟨["A", "B"], dictInsert "k" (buildRunData ["A", "B"] [1, 2]) []⟩ :=
  ⟨(c4_save_run_record ["A", "B"] [1, 2] (by decide) rfl (by decide)).1
      0 (by decide),
   (c4_save_run_record ["A", "B"] [1, 2] (by decide) rfl (by decide)).2.1,
   (c4_save_run_record ["A", "B"] [1, 2] (by decide) rfl (by decide)).2.2
      ⟨["A", "B"], []⟩ "k" rfl⟩

/-- The start branch of the combined split trigger: from Idle it starts
the timer and leaves the data store untouched. -/
theorem onSplit_start (s : PluginState) (now : ℚ) (key : String)
    (hrun : s.timer.timer_running = false)
    (hidx : s.timer.current_split_index = -1) :
    onSplit s now key =
      { s with timer :=
          s.timer.start s.data.split_names s.data.segment_history now } := by
  simp [onSplit, hrun, hidx]

/-- The no-op branch of the combined split trigger: not running and not
at index −1, neither `start()` nor `split()` fires. -/
theorem onSplit_noop (s : PluginState) (now : ℚ) (key : String)
    (hrun : s.timer.timer_running = false)
    (hidx : s.timer.current_split_index ≠ -1) :
    onSplit s now key = s := by
  simp [onSplit, hrun, hidx]

/-- The non-final split branch: while running below the last segment,
one cumulative time is appended, the index is incremented, and the data
store is untouched. -/
theorem onSplit_split_nonfinal (s : PluginState) (now : ℚ) (key : String)
    (hrun : s.timer.timer_running = true)
    (hlt : s.timer.current_split_index <
      (s.data.split_names.length : ℤ) - 1) :
    onSplit s now key =
      { s with timer :=
          { s.timer with
            split_times := s.timer.split_times ++ [now - s.timer.start_time]
            current_split_index := s.timer.current_split_index + 1 } } := by
  have hc : ¬ ((s.data.split_names.length : ℤ) - 1 ≤
      s.timer.current_split_index) := not_le.mpr hlt
  simp [onSplit, SplitsTimer.split, hrun, hc]

/-- The final split branch: at the last segment, one cumulative time is
appended, running turns off with the index unchanged, and `save_run` is
invoked on the appended split times. -/
theorem onSplit_split_final (s : PluginState) (now : ℚ) (key : String)
    (hrun : s.timer.timer_running = true)
    (hge : (s.data.split_names.length : ℤ) - 1 ≤
      s.timer.current_split_index) :
    onSplit s now key =
      { timer :=
          { s.timer with
            split_times := s.timer.split_times ++ [now - s.timer.start_time]
            timer_running := false }
        data := s.data.save_run
          (s.timer.split_times ++ [now - s.timer.start_time]) key } := by
  simp [onSplit, SplitsTimer.split, hrun, hge]

/-- Driving a running engine through the remaining split triggers: the
run finishes with `running = false`, the index parked at the last
segment, the snapshot untouched, and exactly one `save_run` on the full
cumulative split-time list keyed by the last trigger's key. -/
theorem onSplits_run (evs : List (ℚ × String)) :
    ∀ s : PluginState,
      evs ≠ [] →
      s.timer.timer_running = true →
      0 ≤ s.timer.current_split_index →
      s.timer.split_times.length = s.timer.current_split_index.toNat →
      s.timer.current_split_index + evs.length =
        (s.data.split_names.length : ℤ) →
      (onSplits s evs).timer.timer_running = false ∧
      (onSplits s evs).timer.current_split_index =
        (s.data.split_names.length : ℤ) - 1 ∧
      (onSplits s evs).timer.start_time = s.timer.start_time ∧
      (onSplits s evs).timer.split_times =
        s.timer.split_times ++ evs.map (fun e => e.1 - s.timer.start_time) ∧
      (onSplits s evs).timer.comparison_pb_segments =
        s.timer.comparison_pb_segments ∧
      (onSplits s evs).timer.comparison_best_segments =
        s.timer.comparison_best_segments ∧
      (onSplits s evs).timer.comparison_pb_total =
        s.timer.comparison_pb_total ∧
      ∀ e, evs.getLast? = some e →
        (onSplits s evs).data = s.data.save_run
          (s.timer.split_times ++ evs.map (fun x => x.1 - s.timer.start_time))
          e.2 := by
  induction evs with
  | nil => intro s hne; exact absurd rfl hne
  | cons ev rest ih =>
      intro s _ hrun hpos hlen hcount
      match rest with
      | [] =>
          have hcnt : s.timer.current_split_index + 1 =
              (s.data.split_names.length : ℤ) := by
            simpa using hcount
          have hge : (s.data.split_names.length : ℤ) - 1 ≤
              s.timer.current_split_index := by omega
          have hone : onSplits s [ev] = onSplit s ev.1 ev.2 := rfl
          rw [hone, onSplit_split_final s ev.1 ev.2 hrun hge]
          refine ⟨rfl, by simpa using by omega, rfl, by simp, rfl, rfl, rfl,
            ?_⟩
          intro e he
          have hee : e = ev := by simpa using he.symm
          subst hee
          simp
      | ev2 :: rest2 =>
          have hcnt2 : s.timer.current_split_index +
              ((rest2.length : ℤ) + 2) =
              (s.data.split_names.length : ℤ) := by
            simp only [List.length_cons] at hcount
            push_cast at hcount
            omega
          have hlt : s.timer.current_split_index <
              (s.data.split_names.length : ℤ) - 1 := by omega
          have hstep := onSplit_split_nonfinal s ev.1 ev.2 hrun hlt
          have hone : onSplits s (ev :: ev2 :: rest2) =
              onSplits (onSplit s ev.1 ev.2) (ev2 :: rest2) := rfl
          rw [hone, hstep]
          obtain ⟨h1, h2, h3, h4, h5, h6, h7, h8⟩ :=
            ih { s with timer :=
                  { s.timer with
                    split_times :=
                      s.timer.split_times ++ [ev.1 - s.timer.start_time]
                    current_split_index :=
                      s.timer.current_split_index + 1 } }
              (by simp) hrun (by simpa using by omega)
              (by simp only [List.length_append, List.length_cons,
                    List.length_nil]
                  omega)
              (by show s.timer.current_split_index + 1 +
                    ((ev2 :: rest2).length : ℤ) =
                    (s.data.split_names.length : ℤ)
                  simp only [List.length_cons]
                  push_cast
                  omega)
          refine ⟨h1, by simpa using h2, h3, ?_, h5, h6, h7, ?_⟩
          · rw [h4]
            simp
          · intro e he
            have hlast : (ev2 :: rest2).getLast? = some e := by
              simpa using he
            rw [h8 e hlast]
            simp

/-- `save_run` never changes the split-name list. -/
theorem save_run_split_names (d : SplitsData) (ts : List ℚ) (key : String) :
    (d.save_run ts key).split_names = d.split_names := by
  unfold SplitsData.save_run
  split <;> rfl

/-- C2 counterexample: names `["A"]`, one start trigger and one split
trigger complete the run, yet afterwards `currentIndex` is 0, not the
Idle value −1: the engine does not return to the Idle state after the
final split. -/
theorem c2_cex :
    (onSplits (onSplit ⟨SplitsTimer.init, ⟨["A"], []⟩⟩ 0 "k0")
        [(5, "k1")]).timer.timer_running = false ∧
    (onSplits (onSplit ⟨SplitsTimer.init, ⟨["A"], []⟩⟩ 0 "k0")
        [(5, "k1")]).timer.current_split_index = 0 ∧
    ((0 : ℤ) = -1 → False) :=
  ⟨rfl, rfl, by decide⟩

/-- C2 (amended): driving the engine from Idle through `start()` and
then one `split()` per segment of a duplicate-free non-empty name list
ends with `running = false` and `currentIndex = N − 1` (the post-finish
state; Idle's −1 is only restored by `reset()`), and, when the run's
timestamp key is fresh, appends exactly one new RunRecord to the
segment history, whose key count equals N. -/
theorem c2_full_run (names : List String) (hist : SegmentHistory)
    (t : SplitsTimer) (t0 : ℚ) (k0 : String) (evs : List (ℚ × String))
    (e : ℚ × String)
    (hrun : t.timer_running = false) (hidx : t.current_split_index = -1)
    (hne : names ≠ []) (hnd : names.Nodup)
    (hevs : evs.length = names.length)
    (hlast : evs.getLast? = some e)
    (hfresh : ∀ p ∈ hist, p.1 ≠ e.2) :
    (onSplits (onSplit ⟨t, ⟨names, hist⟩⟩ t0 k0) evs).timer.timer_running
      = false ∧
    (onSplits (onSplit ⟨t, ⟨names, hist⟩⟩ t0 k0) evs).timer.current_split_index
      = (names.length : ℤ) - 1 ∧
    (onSplits (onSplit ⟨t, ⟨names, hist⟩⟩ t0 k0) evs).data.split_names
      = names ∧
    (onSplits (onSplit ⟨t, ⟨names, hist⟩⟩ t0 k0) evs).data.segment_history
      = hist ++ [(e.2, buildRunData names (evs.map (fun x => x.1 - t0)))] ∧
    (onSplits (onSplit ⟨t, ⟨names, hist⟩⟩ t0 k0) evs).data.segment_history.length
      = hist.length + 1 ∧
    (buildRunData names (evs.map (fun x => x.1 - t0))).length
      = names.length := by
  have hnlen : 0 < names.length := List.length_pos.mpr hne
  have hstart : onSplit ⟨t, ⟨names, hist⟩⟩ t0 k0 =
      ⟨t.start names hist t0, ⟨names, hist⟩⟩ := by
    simp [onSplit, hrun, hidx]
  rw [hstart]
  obtain ⟨h1, h2, h3, h4, h5, h6, h7, h8⟩ :=
    onSplits_run evs ⟨t.start names hist t0, ⟨names, hist⟩⟩
      (by
        intro h
        rw [h] at hevs
        exact hne (List.eq_nil_of_length_eq_zero hevs.symm))
      rfl (le_refl 0) rfl
      (by
        show (0 : ℤ) + (evs.length : ℤ) = (names.length : ℤ)
        rw [hevs]
        ring)
  have hdata := h8 e hlast
  have hts : (⟨t.start names hist t0, ⟨names, hist⟩⟩ :
      PluginState).timer.split_times ++
      evs.map (fun x => x.1 -
        (⟨t.start names hist t0, ⟨names, hist⟩⟩ :
          PluginState).timer.start_time) =
      evs.map (fun x => x.1 - t0) := by
    show ([] : List ℚ) ++ evs.map (fun x => x.1 - t0) =
      evs.map (fun x => x.1 - t0)
    simp
  rw [hts] at hdata
  have hsave : (⟨t.start names hist t0, ⟨names, hist⟩⟩ :
      PluginState).data.save_run (evs.map (fun x => x.1 - t0)) e.2 =
      ⟨names, hist ++
        [(e.2, buildRunData names (evs.map (fun x => x.1 - t0)))]⟩ := by
    show SplitsData.save_run ⟨names, hist⟩ (evs.map (fun x => x.1 - t0)) e.2 = _
    unfold SplitsData.save_run
    rw [if_pos (by simp [hevs])]
    rw [dictInsert_of_not_mem _ _ _ hfresh]
  rw [hsave] at hdata
  refine ⟨h1, h2, ?_, ?_, ?_, ?_⟩
  · rw [hdata]
  · rw [hdata]
  · rw [hdata]
    simp
  · rw [buildRunData_eq_map names _ hnd]
    simp

/-- C2 witness: the amended full-run theorem applied to one segment,
an empty history, the Idle initial timer and a single split trigger. -/
theorem c2_full_run_witness :
    (onSplits (onSplit ⟨SplitsTimer.init, ⟨["A"], []⟩⟩ 3 "k0")
        [(5, "k1")]).timer.timer_running = false ∧
    (onSplits (onSplit ⟨SplitsTimer.init, ⟨["A"], []⟩⟩ 3 "k0")
        [(5, "k1")]).timer.current_split_index
      = ((["A"] : List String).length : ℤ) - 1 ∧
    (onSplits (onSplit ⟨SplitsTimer.init, ⟨["A"], []⟩⟩ 3 "k0")
        [(5, "k1")]).data.split_names = ["A"] ∧
    (onSplits (onSplit ⟨SplitsTimer.init, ⟨["A"], []⟩⟩ 3 "k0")
        [(5, "k1")]).data.segment_history
      = [] ++ [((5, "k1").2,
          buildRunData ["A"] ([(5, "k1")].map (fun x => x.1 - 3)))] ∧
    (onSplits (onSplit ⟨SplitsTimer.init, ⟨["A"], []⟩⟩ 3 "k0")
        [(5, "k1")]).data.segment_history.length
      = ([] : SegmentHistory).length + 1 ∧
    (buildRunData ["A"] ([(5, "k1")].map (fun x => x.1 - 3))).length
      = (["A"] : List String).length :=
  c2_full_run ["A"] [] SplitsTimer.init 3 "k0" [(5, "k1")] (5, "k1")
    rfl rfl (by decide) (by decide) rfl rfl (by decide)

/-- C10: after the final split of a complete run from Idle, `running`
is false but `currentIndex` stays at N − 1 (not −1); in that
post-finish state the combined split trigger is a no-op in both of its
branches — the start branch needs `currentIndex = -1` and the split
branch needs `running` — so no new run can begin until `reset()`. -/
theorem c10_post_finish (names : List String) (hist : SegmentHistory)
    (t : SplitsTimer) (t0 : ℚ) (k0 : String) (evs : List (ℚ × String))
    (hrun : t.timer_running = false) (hidx : t.current_split_index = -1)
    (hne : names ≠ []) (hevs : evs.length = names.length) :
    (onSplits (onSplit ⟨t, ⟨names, hist⟩⟩ t0 k0) evs).timer.timer_running
      = false ∧
    (onSplits (onSplit ⟨t, ⟨names, hist⟩⟩ t0 k0) evs).timer.current_split_index
      = (names.length : ℤ) - 1 ∧
    (onSplits (onSplit ⟨t, ⟨names, hist⟩⟩ t0 k0) evs).timer.current_split_index
      ≠ -1 ∧
    ∀ (now : ℚ) (key : String),
      onSplit (onSplits (onSplit ⟨t, ⟨names, hist⟩⟩ t0 k0) evs) now key =
        onSplits (onSplit ⟨t, ⟨names, hist⟩⟩ t0 k0) evs := by
  have hnlen : 0 < names.length := List.length_pos.mpr hne
  have hstart : onSplit ⟨t, ⟨names, hist⟩⟩ t0 k0 =
      ⟨t.start names hist t0, ⟨names, hist⟩⟩ := by
    simp [onSplit, hrun, hidx]
  rw [hstart]
  obtain ⟨h1, h2, _, _, _, _, _, _⟩ :=
    onSplits_run evs ⟨t.start names hist t0, ⟨names, hist⟩⟩
      (by
        intro h
        rw [h] at hevs
        exact hne (List.eq_nil_of_length_eq_zero hevs.symm))
      rfl (le_refl 0) rfl
      (by
        show (0 : ℤ) + (evs.length : ℤ) = (names.length : ℤ)
        rw [hevs]
        ring)
  have hne2 : (onSplits ⟨t.start names hist t0, ⟨names, hist⟩⟩
      evs).timer.current_split_index ≠ -1 := by
    rw [h2]
    show ¬ ((names.length : ℤ) - 1 = -1)
    omega
  exact ⟨h1, h2, hne2, fun now key => onSplit_noop _ now key h1 hne2⟩

/-- C10 witness: the post-finish theorem applied to one segment, an
empty history, the Idle initial timer and a single split trigger, with
one further trigger at time 9 / key `"k2"` shown to be a no-op. -/
theorem c10_post_finish_witness :
    (onSplits (onSplit ⟨SplitsTimer.init, ⟨["A"], []⟩⟩ 0 "k0")
        [(5, "k1")]).timer.timer_running = false ∧
    (onSplits (onSplit ⟨SplitsTimer.init, ⟨["A"], []⟩⟩ 0 "k0")
        [(5, "k1")]).timer.current_split_index
      = ((["A"] : List String).length : ℤ) - 1 ∧
    (onSplits (onSplit ⟨SplitsTimer.init, ⟨["A"], []⟩⟩ 0 "k0")
        [(5, "k1")]).timer.current_split_index ≠ -1 ∧
    onSplit (onSplits (onSplit ⟨SplitsTimer.init, ⟨["A"], []⟩⟩ 0 "k0")
        [(5, "k1")]) 9 "k2" =
      onSplits (onSplit ⟨SplitsTimer.init, ⟨["A"], []⟩⟩ 0 "k0") [(5, "k1")] :=
  ⟨(c10_post_finish ["A"] [] SplitsTimer.init 0 "k0" [(5, "k1")]
      rfl rfl (by decide) rfl).1,
   (c10_post_finish ["A"] [] SplitsTimer.init 0 "k0" [(5, "k1")]
      rfl rfl (by decide) rfl).2.1,
   (c10_post_finish ["A"] [] SplitsTimer.init 0 "k0" [(5, "k1")]
      rfl rfl (by decide) rfl).2.2.1,
   (c10_post_finish ["A"] [] SplitsTimer.init 0 "k0" [(5, "k1")]
      rfl rfl (by decide) rfl).2.2.2 9 "k2"⟩
